import Mathlib

/-!
Shallow embedding of `r2/r2/controllers/api_docs.py`: the API-documentation
metadata attachment (`api_doc`), the per-controller collector
(`ApidocsController.docs_from_controller`) and the cross-controller
aggregation loop of `ApidocsController.GET_docs`.

Python dictionaries holding a fixed set of documentation keys are embedded as
a structure of `Option` fields (`none` = key absent).  Python object identity
and in-place mutation of the `_api_doc` dictionaries is embedded with an
explicit heap (`List DocDict`, addresses are list indices): a function's
`_api_doc` attribute and the `extends` entry both hold heap addresses, exactly
as they hold object references in the source.
-/

set_option autoImplicit false
set_option synthInstance.maxSize 512

namespace ApiDocs

/-- One `_api_doc`-style dictionary.  Each field is one of the keys that the
source ever stores in such a dictionary; `none` means the key is absent.  The
`extends` entry of the source holds a reference to another function's
`_api_doc` dictionary, embedded here as a heap address. -/
structure DocDict where
  «section» : Option String := none
  doc : Option String := none
  uri : Option String := none
  uri_variants : Option (List String) := none
  extensions : Option (List String) := none
  parameters : Option (List (String × String)) := none
  «extends» : Option Nat := none
  filepath : Option String := none
  lineno : Option Nat := none
  relfilepath : Option String := none
  deriving DecidableEq

def emptyDict : DocDict := {}

/-- The heap of dictionaries; an address is an index into the list. -/
abbrev Heap := List DocDict

def hget : Heap → Nat → DocDict
  | [], _ => emptyDict
  | d :: _, 0 => d
  | _ :: rest, n + 1 => hget rest n

def hset : Heap → Nat → DocDict → Heap
  | [], _, _ => []
  | _ :: rest, 0, d => d :: rest
  | x :: rest, n + 1, d => x :: hset rest n d

/-- Dictionary-update semantics for one key: the value of the updating
dictionary wins when that key is present there. -/
def oupd {α : Type} (old new : Option α) : Option α :=
  match new with
  | some v => some v
  | none => old

/-- Embedding of `d.update(u)` for the fixed key set of `DocDict`. -/
def dictUpdate (d u : DocDict) : DocDict where
  «section» := oupd d.«section» u.«section»
  doc := oupd d.doc u.doc
  uri := oupd d.uri u.uri
  uri_variants := oupd d.uri_variants u.uri_variants
  extensions := oupd d.extensions u.extensions
  parameters := oupd d.parameters u.parameters
  «extends» := oupd d.«extends» u.«extends»
  filepath := oupd d.filepath u.filepath
  lineno := oupd d.lineno u.lineno
  relfilepath := oupd d.relfilepath u.relfilepath

/-- Association list lookup, the embedding of `dict.__getitem__` /
`dict.get`. -/
def alistGet {α : Type} (k : String) : List (String × α) → Option α
  | [] => none
  | p :: rest => if p.1 = k then some p.2 else alistGet k rest

/-- Association list store, the embedding of `dict.__setitem__`: replace the
value of an existing key in place, append a new key at the end. -/
def alistSet {α : Type} (k : String) (v : α) : List (String × α) → List (String × α)
  | [] => [(k, v)]
  | p :: rest => if p.1 = k then (k, v) :: rest else p :: alistSet k v rest

/-- The `section_info` table of `api_docs.py` (lines 15-46); the display
titles are the literal strings handed to the translation function. -/
def section_info : List (String × String) :=
  [("account", "account"),
   ("flair", "flair"),
   ("links_and_comments", "links & comments"),
   ("messages", "private messages"),
   ("moderation", "moderation"),
   ("misc", "misc"),
   ("listings", "listings"),
   ("search", "search"),
   ("subreddits", "subreddits"),
   ("users", "users")]

/-- Keyword arguments of the `api_doc` decorator.  `extends` is passed in the
source as a function object; it is embedded as the referenced function's
name.  (`section` is a positional argument of `api_doc`, not part of
`kwargs`.) -/
structure Kwargs where
  doc : Option String := none
  uri : Option String := none
  uri_variants : Option (List String) := none
  extensions : Option (List String) := none
  parameters : Option (List (String × String)) := none
  «extends» : Option String := none
  deriving DecidableEq

/-- Embedding of `doc.update(kwargs)` (line 60), after `kwargs['extends']`
has been replaced by the resolved reference `ea` (line 59). -/
def kwargsUpdate (d : DocDict) (k : Kwargs) (ea : Option Nat) : DocDict :=
  { d with
    doc := oupd d.doc k.doc
    uri := oupd d.uri k.uri
    uri_variants := oupd d.uri_variants k.uri_variants
    extensions := oupd d.extensions k.extensions
    parameters := oupd d.parameters k.parameters
    «extends» := oupd d.«extends» ea }

/-- The attachment-time state: the heap of `_api_doc` dictionaries plus the
map from function name to the address of its `_api_doc` attribute (absent
name = the function has no `_api_doc` attribute). -/
structure AttachState where
  heap : Heap
  attached : List (String × Nat)
  deriving DecidableEq

/-- Embedding of the `api_doc` decorator (lines 50-65) applied to the
function `fn` defined at `filepath`:`lineno`.  `getattr(fn, '_api_doc', {})`
allocates a fresh empty dictionary when the attribute is absent;
`kwargs['extends']._api_doc` fails (AttributeError, embedded as `none`) when
the referenced function has no `_api_doc` attribute. -/
def api_doc (st : AttachState) (sec : String) (kwargs : Kwargs)
    (fn filepath : String) (lineno : Nat) : Option AttachState :=
  let p : Nat × AttachState :=
    match alistGet fn st.attached with
    | some a => (a, st)
    | none => (st.heap.length,
        ⟨st.heap ++ [emptyDict], st.attached ++ [(fn, st.heap.length)]⟩)
  let addr := p.1
  let st1 := p.2
  let er : Option (Option Nat) :=
    match kwargs.«extends» with
    | none => some none
    | some g =>
      match alistGet g st1.attached with
      | none => none
      | some ga => some (some ga)
  match er with
  | none => none
  | some extendsAddr =>
    let d0 := hget st1.heap addr
    let d1 := kwargsUpdate d0 kwargs extendsAddr
    let d2 := { d1 with
      «section» := some sec, filepath := some filepath, lineno := some lineno }
    some { st1 with heap := hset st1.heap addr d2 }

/-- One controller member as iterated by `controller.__dict__.iteritems()`:
its name, the (cleaned) docstring `inspect.getdoc` would return, and the
address of its `_api_doc` attribute when present. -/
structure Endpoint where
  name : String
  docstring : Option String := none
  api_doc : Option Nat := none
  deriving DecidableEq

/-- Embedding of `str.partition('_')` restricted to what line 88 uses: the
part before the first underscore and the part after it (the part after is
empty both when there is no underscore and when nothing follows it, which is
exactly the condition of the `if not action` skip). -/
def partitionChars : List Char → List Char × List Char
  | [] => ([], [])
  | c :: cs =>
    if c = '_' then ([], cs)
    else
      let p := partitionChars cs
      (c :: p.1, p.2)

def partitionName (s : String) : String × String :=
  let p := partitionChars s.toList
  (String.mk p.1, String.mk p.2)

/-- Embedding of `docs.get('uri') or '/'.join((url_prefix, action))`
(line 103): the stored URI is used only when present and truthy (a present
empty string falls back to the derived URI). -/
def deriveUri (u : Option String) (urlPrefix action : String) : String :=
  match u with
  | some s => if s = "" then urlPrefix ++ "/" ++ action else s
  | none => urlPrefix ++ "/" ++ action

/-- Embedding of the extension-folding block (lines 104-108). -/
def foldExt (docs : DocDict) (uri : String) : String × DocDict :=
  match docs.extensions with
  | some exts =>
    if exts.length = 1 then (uri ++ "." ++ exts.headD "", { docs with extensions := none })
    else (uri, docs)
  | none => (uri, docs)

/-- Character-list prefix test: the embedding of `str.startswith`, written
over the character lists so that it follows Python's character-based string
semantics. -/
def listIsPrefix : List Char → List Char → Bool
  | [], _ => true
  | _ :: _, [] => false
  | c :: cs, d :: ds => c = d && listIsPrefix cs ds

def strStartsWith (s pre : String) : Bool := listIsPrefix pre.toList s.toList

/-- Character-based string slicing `s[n:]`. -/
def strDrop (s : String) (n : Nat) : String := String.mk (s.toList.drop n)

/-- Model of `os.path.relpath` restricted to the guarded call site
(line 114), where the file path starts with the root directory. -/
def relpath (p root : String) : String :=
  let rest := strDrop p root.length
  if strStartsWith rest "/" then strDrop rest 1 else rest

/-- Embedding of the inheritance-resolution block (lines 94-101): the fresh
`docs` dictionary, its `doc` entry, the `extends` update with the parameter
reset, and the final overwrite with the endpoint's own `_api_doc`. -/
def buildDocs (heap : Heap) (docstring : Option String) (api : DocDict) : DocDict :=
  let docs0 : DocDict := { emptyDict with doc := docstring }
  let docs1 : DocDict :=
    match api.«extends» with
    | some pa =>
      let d := dictUpdate docs0 (hget heap pa)
      { d with parameters := some [] }
    | none => docs0
  dictUpdate docs1 api

/-- Embedding of lines 103-114: URI derivation, extension folding, storing
the final URI, and source-path normalization.  `docs['filepath']` is a plain
subscript, so a missing key is a KeyError, embedded as `none`. -/
def finishDocs (docs : DocDict) (urlPrefix action root_dir : String) :
    Option (String × DocDict) :=
  let uri0 := deriveUri docs.uri urlPrefix action
  let p := foldExt docs uri0
  let uri := p.1
  let d1 : DocDict := { p.2 with uri := some uri }
  match d1.filepath with
  | none => none
  | some fp =>
    if strStartsWith fp root_dir then
      some (uri, { d1 with relfilepath := some (relpath fp root_dir) })
    else some (uri, d1)

/-- The section → URI → method index.  The method level stores the heap
address of the merged record, as the source stores the `docs` dictionary
object itself. -/
abbrev MDict := List (String × Nat)
abbrev UDict := List (String × MDict)
abbrev Index := List (String × UDict)

/-- Embedding of `api_docs[sec][uri][method] = a` on the
`defaultdict(lambda: defaultdict(dict))` of line 86. -/
def indexInsert (idx : Index) (sec uri method : String) (a : Nat) : Index :=
  let u := (alistGet sec idx).getD []
  let m := (alistGet uri u).getD []
  alistSet sec (alistSet uri (alistSet method a m) u) idx

def lookup3 (idx : Index) (sec uri method : String) : Option Nat :=
  match alistGet sec idx with
  | none => none
  | some u =>
    match alistGet uri u with
    | none => none
    | some m => alistGet method m

/-- Processing of one `(name, func)` pair of the loop body (lines 87-119).
The truthiness test `api_doc and ...` of line 93 is subsumed by the
`'section' in api_doc` test (an empty dictionary has no `section` key).  The
merged `docs` dictionary is a fresh allocation; it reaches the heap only
when it is filed into the index. -/
def processEndpoint (heap : Heap) (idx : Index) (ep : Endpoint)
    (urlPrefix root_dir : String) : Option (Heap × Index) :=
  let method := (partitionName ep.name).1
  let action := (partitionName ep.name).2
  if action = "" then some (heap, idx)
  else
    match ep.api_doc with
    | none => some (heap, idx)
    | some addr =>
      if (hget heap addr).«section».isSome ∧ (method = "GET" ∨ method = "POST") then
        match finishDocs (buildDocs heap ep.docstring (hget heap addr)) urlPrefix action root_dir with
        | none => none
        | some pr =>
          match pr.2.«section» with
          | none => none
          | some s =>
            some (heap ++ [pr.2],
              (pr.1 :: pr.2.uri_variants.getD []).foldl
                (fun acc v => indexInsert acc s v method heap.length) idx)
      else some (heap, idx)

def collectList (urlPrefix root_dir : String) :
    List Endpoint → Heap → Index → Option (Heap × Index)
  | [], heap, idx => some (heap, idx)
  | ep :: rest, heap, idx =>
    match processEndpoint heap idx ep urlPrefix root_dir with
    | none => none
    | some hi => collectList urlPrefix root_dir rest hi.1 hi.2

/-- Embedding of `ApidocsController.docs_from_controller` (lines 68-121): a
controller is the list of its `__dict__` members. -/
def docs_from_controller (heap : Heap) (controller : List Endpoint)
    (urlPrefix root_dir : String) : Option (Heap × Index) :=
  collectList urlPrefix root_dir controller heap []

/-- Embedding of `api_docs[sec].update(contents)` (line 142) on the
`defaultdict(dict)` of line 139. -/
def sectionUpdate (acc : Index) (sec : String) (contents : UDict) : Index :=
  let cur := (alistGet sec acc).getD []
  alistSet sec (contents.foldl (fun c kv => alistSet kv.1 kv.2 c) cur) acc

/-- Merging one controller's partial index into the running total
(lines 141-142). -/
def mergeIndex (acc part : Index) : Index :=
  part.foldl (fun a sc => sectionUpdate a sc.1 sc.2) acc

/-- The aggregation loop of `GET_docs` (lines 138-142) over an ordered list
of `(controller, url_prefix)` sources, threading the heap through the
collector calls. -/
def aggregate (root_dir : String) :
    List (List Endpoint × String) → Heap → Index → Option (Heap × Index)
  | [], heap, acc => some (heap, acc)
  | c :: rest, heap, acc =>
    match docs_from_controller heap c.1 c.2 root_dir with
    | none => none
    | some hp => aggregate root_dir rest hp.1 (mergeIndex acc hp.2)

/-- Embedding of `GET_docs` up to the rendered page (rendering is outside
the core): the merged index over the given sources. -/
def GET_docs (heap : Heap) (sources : List (List Endpoint × String))
    (root_dir : String) : Option (Heap × Index) :=
  aggregate root_dir sources heap []

/-- The method dictionary filed in an index for a given section and URI. -/
def getUri (idx : Index) (sec uri : String) : Option MDict :=
  match alistGet sec idx with
  | none => none
  | some u => alistGet uri u

/-- Keys are duplicate-free at the section level and inside every section's
URI dictionary (true of every index the collector builds, since dictionary
keys are unique). -/
def indexNoDup (P : Index) : Prop :=
  (P.map Prod.fst).Nodup ∧ ∀ p ∈ P, (p.2.map Prod.fst).Nodup

instance (P : Index) : Decidable (indexNoDup P) := by
  unfold indexNoDup; infer_instance

/-! Concrete records used by the closed counterexample and witness
theorems. -/

def cx1Dict : DocDict :=
  { «section» := some "bogus", uri := some "/api/x", filepath := some "/r/f.py" }

def cx1Ep : Endpoint := { name := "GET_thing", api_doc := some 0 }

def cx1Rec : DocDict :=
  { «section» := some "bogus", uri := some "/api/x", filepath := some "/r/f.py",
    relfilepath := some "f.py" }

def cx2DictA : DocDict :=
  { «section» := some "x", uri := some "/api/foo", filepath := some "/r/a.py" }

def cx2DictB : DocDict :=
  { «section» := some "x", uri := some "/api/foo", filepath := some "/r/b.py" }

def cx2EpA : Endpoint := { name := "GET_foo", api_doc := some 0 }

def cx2EpB : Endpoint := { name := "POST_foo", api_doc := some 1 }

def cx7A : DocDict :=
  { «section» := some "account", filepath := some "/r/a.py", lineno := some 10 }

def cx7A2 : DocDict := { cx7A with uri := some "/changed" }

def cx7B : DocDict :=
  { «section» := some "account", «extends» := some 0,
    filepath := some "/r/b.py", lineno := some 20 }

/-- The inheritance-resolved record of one endpoint: the value of `docs`
after line 101, before URI derivation. -/
def resolvedBase (heap : Heap) (ep : Endpoint) (addr : Nat) : DocDict :=
  buildDocs heap ep.docstring (hget heap addr)

/-- The final canonical URI of one endpoint: the value of the local `uri`
after lines 103-108 (derived URI with a single extension folded in). -/
def canonicalUri (heap : Heap) (ep : Endpoint) (addr : Nat) ( urlPrefix : String) :
    String :=
  (foldExt (resolvedBase heap ep addr)
    (deriveUri (resolvedBase heap ep addr).uri urlPrefix (partitionName ep.name).2)).1

/-- The conditions of lines 88-93 under which the loop body files nothing
for an endpoint: no action suffix, no `_api_doc` attribute, a method other
than GET/POST, or attached metadata without a `section` key. -/
def skipCond (heap : Heap) (ep : Endpoint) : Prop :=
  (partitionName ep.name).2 = "" ∨ ep.api_doc = none ∨
  ((partitionName ep.name).1 ≠ "GET" ∧ (partitionName ep.name).1 ≠ "POST") ∨
  (∃ addr, ep.api_doc = some addr ∧ addr < heap.length ∧
    (hget heap addr).«section» = none)

def cx2RecA : DocDict :=
  { «section» := some "x", uri := some "/api/foo", filepath := some "/r/a.py",
    relfilepath := some "a.py" }

def cx2RecB : DocDict :=
  { «section» := some "x", uri := some "/api/foo", filepath := some "/r/b.py",
    relfilepath := some "b.py" }

def cx2P1 : Index := [("x", [("/api/foo", [("GET", 0)])])]

def cx2P2 : Index := [("x", [("/api/foo", [("GET", 1)])])]

def cx3Parent : DocDict :=
  { «section» := some "links_and_comments", doc := some "parent doc",
    uri := some "/api/parent", uri_variants := some ["/api/pv"],
    extensions := some ["json", "xml"], parameters := some [("pk", "pv")],
    filepath := some "/r/p.py" }

def cx3Child : DocDict :=
  { «section» := some "account", uri := some "/api/child", «extends» := some 0,
    filepath := some "/r/c.py" }

def cx3Ep : Endpoint := { name := "POST_child", api_doc := some 1 }

def cx4Dict : DocDict :=
  { «section» := some "listings", uri := some "/api/foo",
    extensions := some ["json"], filepath := some "/r/d.py" }

def cx4Ep : Endpoint := { name := "GET_foo", api_doc := some 0 }

def cx5Dict : DocDict :=
  { «section» := some "misc", uri := some "/api/foo",
    uri_variants := some ["/api/bar"], filepath := some "/r/e.py" }

def cx5Ep : Endpoint := { name := "GET_foo", api_doc := some 0 }

def cx6Ep : Endpoint := { name := "helper", api_doc := some 0 }

def cx8Rec : DocDict :=
  { «section» := some "listings", uri := some "/api/foo.json",
    filepath := some "/r/d.py", relfilepath := some "d.py" }

def cx9Parent : DocDict :=
  { doc := some "parent doc", uri := some "/api/p", filepath := some "/r/p.py" }

def cx9Child : DocDict :=
  { «section» := some "misc", «extends» := some 0, filepath := some "/r/c.py" }

def cx9Ep : Endpoint := { name := "GET_c", api_doc := some 1 }

def cx10Dict : DocDict :=
  { «section» := some "users", uri := some "", filepath := some "/r/u.py" }

/-! Helper lemmas about the dictionary and heap primitives. -/

@[simp]
theorem oupd_some {α : Type} (x : Option α) (v : α) : oupd x (some v) = some v := rfl

@[simp]
theorem oupd_none {α : Type} (x : Option α) : oupd x none = x := rfl

theorem oupd_none_left {α : Type} (x : Option α) : oupd none x = x := by
  cases x <;> rfl

theorem hget_append_lt : ∀ (h t : Heap) (a : Nat), a < h.length →
    hget (h ++ t) a = hget h a
  | [], _, a, ha => absurd ha (Nat.not_lt_zero a)
  | _ :: _, _, 0, _ => rfl
  | _ :: rest, t, a + 1, ha =>
    hget_append_lt rest t a (Nat.lt_of_succ_lt_succ ha)

theorem hget_hset_self : ∀ (h : Heap) (a : Nat) (d : DocDict), a < h.length →
    hget (hset h a d) a = d
  | [], a, _, ha => absurd ha (Nat.not_lt_zero a)
  | _ :: _, 0, _, _ => rfl
  | _ :: rest, a + 1, d, ha =>
    hget_hset_self rest a d (Nat.lt_of_succ_lt_succ ha)

theorem hget_hset_ne : ∀ (h : Heap) (a b : Nat) (d : DocDict), b ≠ a →
    hget (hset h a d) b = hget h b
  | [], _, _, _, _ => rfl
  | _ :: _, 0, 0, _, hne => absurd rfl hne
  | _ :: _, 0, _ + 1, _, _ => rfl
  | _ :: _, _ + 1, 0, _, _ => rfl
  | _ :: rest, a + 1, b + 1, d, hne =>
    hget_hset_ne rest a b d (fun hba => hne (congrArg Nat.succ hba))

theorem alistGet_set_self {α : Type} : ∀ (l : List (String × α)) (k : String) (v : α),
    alistGet k (alistSet k v l) = some v
  | [], k, v => by simp [alistGet, alistSet]
  | p :: rest, k, v => by
    by_cases hp : p.1 = k
    · simp [alistGet, alistSet, hp]
    · simp [alistGet, alistSet, hp, alistGet_set_self rest k v]

theorem alistGet_set_ne {α : Type} : ∀ (l : List (String × α)) (k k2 : String) (v : α),
    k2 ≠ k → alistGet k2 (alistSet k v l) = alistGet k2 l
  | [], k, k2, v, hne => by
    simp [alistGet, alistSet, Ne.symm hne]
  | p :: rest, k, k2, v, hne => by
    by_cases hp : p.1 = k
    · simp [alistGet, alistSet, hp, Ne.symm hne]
    · simp [alistGet, alistSet, hp, alistGet_set_ne rest k k2 v hne]

theorem alistGet_notmem {α : Type} : ∀ (l : List (String × α)) (k : String),
    (∀ p ∈ l, p.1 ≠ k) → alistGet k l = none
  | [], _, _ => rfl
  | p :: rest, k, h => by
    simp [alistGet, h p (List.mem_cons_self p rest),
      alistGet_notmem rest k (fun q hq => h q (List.mem_cons_of_mem p hq))]

theorem alistGet_foldset_notmem {α : Type} :
    ∀ (l : List (String × α)) (init : List (String × α)) (k : String),
    (∀ p ∈ l, p.1 ≠ k) →
    alistGet k (l.foldl (fun c kv => alistSet kv.1 kv.2 c) init) = alistGet k init
  | [], _, _, _ => rfl
  | p :: rest, init, k, h => by
    rw [List.foldl_cons,
      alistGet_foldset_notmem rest (alistSet p.1 p.2 init) k
        (fun q hq => h q (List.mem_cons_of_mem p hq)),
      alistGet_set_ne init p.1 k p.2 (fun hk => h p (List.mem_cons_self p rest) hk.symm)]

theorem alistGet_foldset {α : Type} :
    ∀ (l : List (String × α)) (init : List (String × α)) (k : String),
    (l.map Prod.fst).Nodup →
    alistGet k (l.foldl (fun c kv => alistSet kv.1 kv.2 c) init) =
      oupd (alistGet k init) (alistGet k l)
  | [], init, k, _ => rfl
  | p :: rest, init, k, hnd => by
    rw [List.map_cons, List.nodup_cons] at hnd
    by_cases hp : p.1 = k
    · rw [List.foldl_cons,
        alistGet_foldset_notmem rest (alistSet p.1 p.2 init) k
          (fun q hq hqk => hnd.1 (by
            rw [hp, ← hqk]; exact List.mem_map_of_mem Prod.fst hq)),
        hp, alistGet_set_self]
      simp [alistGet, hp]
    · rw [List.foldl_cons, alistGet_foldset rest (alistSet p.1 p.2 init) k hnd.2,
        alistGet_set_ne init p.1 k p.2 (fun hk => hp hk.symm)]
      simp [alistGet, hp]

/-! Helper lemmas about index insertion and lookup. -/

theorem lookup3_insert_self (idx : Index) (s v m : String) (a : Nat) :
    lookup3 (indexInsert idx s v m a) s v m = some a := by
  simp [lookup3, indexInsert, alistGet_set_self]

theorem lookup3_insert_preserve (idx : Index) (s u v m : String) (a : Nat)
    (h : lookup3 idx s u m = some a) :
    lookup3 (indexInsert idx s v m a) s u m = some a := by
  rcases hs : alistGet s idx with _ | uu
  · simp [lookup3, hs] at h
  · rcases hu : alistGet u uu with _ | mm
    · simp [lookup3, hs, hu] at h
    · simp only [lookup3, hs, hu] at h
      by_cases huv : u = v
      · subst huv
        exact lookup3_insert_self idx s u m a
      · simp only [lookup3, indexInsert, alistGet_set_self, hs, Option.getD_some,
          alistGet_set_ne _ v u _ huv, hu]
        exact h

theorem fold_insert_preserve (s m : String) (a : Nat) :
    ∀ (uris : List String) (idx : Index) (u : String),
    lookup3 idx s u m = some a →
    lookup3 (uris.foldl (fun acc v => indexInsert acc s v m a) idx) s u m = some a
  | [], _, _, h => h
  | v :: rest, idx, u, h => by
    rw [List.foldl_cons]
    exact fold_insert_preserve s m a rest (indexInsert idx s v m a) u
      (lookup3_insert_preserve idx s u v m a h)

theorem fold_insert_mem (s m : String) (a : Nat) :
    ∀ (uris : List String) (idx : Index) (u : String), u ∈ uris →
    lookup3 (uris.foldl (fun acc v => indexInsert acc s v m a) idx) s u m = some a
  | [], _, _, hu => absurd hu (List.not_mem_nil _)
  | v :: rest, idx, u, hu => by
    rw [List.foldl_cons]
    rcases List.mem_cons.mp hu with hu | hu
    · subst hu
      exact fold_insert_preserve s m a rest (indexInsert idx s u m a) u
        (lookup3_insert_self idx s u m a)
    · exact fold_insert_mem s m a rest (indexInsert idx s v m a) u hu

/-! Field lemmas about the record-building steps of the collector. -/

theorem buildDocs_section (heap : Heap) (ds : Option String) (api : DocDict)
    (s : String) (hsec : api.«section» = some s) :
    (buildDocs heap ds api).«section» = some s := by
  unfold buildDocs dictUpdate
  rw [hsec]
  rfl

theorem buildDocs_filepath (heap : Heap) (ds : Option String) (api : DocDict)
    (fp : String) (hfp : api.filepath = some fp) :
    (buildDocs heap ds api).filepath = some fp := by
  unfold buildDocs dictUpdate
  rw [hfp]
  rfl

theorem buildDocs_of_extends (heap : Heap) (ds : Option String) (api : DocDict)
    (pa : Nat) (hext : api.«extends» = some pa) :
    (buildDocs heap ds api).uri = oupd (hget heap pa).uri api.uri ∧
    (buildDocs heap ds api).doc = oupd (oupd ds (hget heap pa).doc) api.doc ∧
    (buildDocs heap ds api).uri_variants =
      oupd (hget heap pa).uri_variants api.uri_variants ∧
    (buildDocs heap ds api).extensions =
      oupd (hget heap pa).extensions api.extensions ∧
    (buildDocs heap ds api).parameters = some (api.parameters.getD []) := by
  unfold buildDocs
  rw [hext]
  refine ⟨?_, ?_, ?_, ?_, ?_⟩
  · simp [dictUpdate, emptyDict, oupd_none_left]
  · simp [dictUpdate, emptyDict]
  · simp [dictUpdate, emptyDict, oupd_none_left]
  · simp [dictUpdate, emptyDict, oupd_none_left]
  · cases hpar : api.parameters <;> simp [dictUpdate, emptyDict, hpar, oupd]

theorem buildDocs_no_extends (heap : Heap) (ds : Option String) (api : DocDict)
    (hext : api.«extends» = none) :
    buildDocs heap ds api = dictUpdate { emptyDict with doc := ds } api := by
  unfold buildDocs
  rw [hext]

theorem foldExt_section (d : DocDict) (u : String) :
    (foldExt d u).2.«section» = d.«section» := by
  rcases hx : d.extensions with _ | exts
  · simp [foldExt, hx]
  · simp only [foldExt, hx]
    split <;> rfl

theorem foldExt_filepath (d : DocDict) (u : String) :
    (foldExt d u).2.filepath = d.filepath := by
  rcases hx : d.extensions with _ | exts
  · simp [foldExt, hx]
  · simp only [foldExt, hx]
    split <;> rfl

theorem foldExt_uri_variants (d : DocDict) (u : String) :
    (foldExt d u).2.uri_variants = d.uri_variants := by
  rcases hx : d.extensions with _ | exts
  · simp [foldExt, hx]
  · simp only [foldExt, hx]
    split <;> rfl

theorem foldExt_parameters (d : DocDict) (u : String) :
    (foldExt d u).2.parameters = d.parameters := by
  rcases hx : d.extensions with _ | exts
  · simp [foldExt, hx]
  · simp only [foldExt, hx]
    split <;> rfl

theorem foldExt_doc (d : DocDict) (u : String) :
    (foldExt d u).2.doc = d.doc := by
  rcases hx : d.extensions with _ | exts
  · simp [foldExt, hx]
  · simp only [foldExt, hx]
    split <;> rfl

/-- What `finishDocs` produces when the filepath key is present: the
canonical URI of the extension-folding step, stored back into the record,
with every inheritance-resolved field carried through unchanged. -/
theorem finishDocs_some (d : DocDict) ( urlPrefix action root_dir fp : String)
    (hfp : d.filepath = some fp) :
    ∃ r : DocDict,
      finishDocs d urlPrefix action root_dir =
        some ((foldExt d (deriveUri d.uri urlPrefix action)).1, r) ∧
      r.«section» = d.«section» ∧
      r.uri = some (foldExt d (deriveUri d.uri urlPrefix action)).1 ∧
      r.uri_variants = d.uri_variants ∧
      r.parameters = d.parameters ∧
      r.doc = d.doc ∧
      r.extensions = (foldExt d (deriveUri d.uri urlPrefix action)).2.extensions := by
  unfold finishDocs
  have hfp2 : (foldExt d (deriveUri d.uri urlPrefix action)).2.filepath = some fp := by
    rw [foldExt_filepath, hfp]
  simp only [hfp2]
  by_cases hsw : strStartsWith fp root_dir
  · simp only [hsw, if_true]
    exact ⟨_, rfl, foldExt_section d _, rfl, foldExt_uri_variants d _,
      foldExt_parameters d _, foldExt_doc d _, rfl⟩
  · simp only [hsw, if_false]
    exact ⟨_, rfl, foldExt_section d _, rfl, foldExt_uri_variants d _,
      foldExt_parameters d _, foldExt_doc d _, rfl⟩

/-- The resolved record keeps the section of the record handed to
`finishDocs` (only `uri`, `extensions` and `relfilepath` are touched). -/
theorem finishDocs_section (d : DocDict) ( urlPrefix action root_dir : String)
    (pr : String × DocDict)
    (h : finishDocs d urlPrefix action root_dir = some pr) :
    pr.2.«section» = d.«section» := by
  unfold finishDocs at h
  rcases hfp : (foldExt d (deriveUri d.uri urlPrefix action)).2.filepath with _ | fp
  · simp only [hfp] at h
    exact Option.noConfusion h
  · simp only [hfp] at h
    split at h
    · rw [← Option.some.inj h]
      exact foldExt_section d _
    · rw [← Option.some.inj h]
      exact foldExt_section d _

/-- Running the loop body on an endpoint that passes every filter of
lines 88-93: the outcome is the resolved record appended to the heap and
filed, under the endpoint's own declared section, for the canonical URI and
every URI variant in order. -/
theorem processEndpoint_run (heap : Heap) (idx : Index) (ep : Endpoint)
    (addr : Nat) (s : String) ( urlPrefix root_dir : String)
    (hact : (partitionName ep.name).2 ≠ "")
    (hdoc : ep.api_doc = some addr)
    (hsec : (hget heap addr).«section» = some s)
    (hm : (partitionName ep.name).1 = "GET" ∨ (partitionName ep.name).1 = "POST") :
    processEndpoint heap idx ep urlPrefix root_dir =
      (finishDocs (buildDocs heap ep.docstring (hget heap addr)) urlPrefix
          (partitionName ep.name).2 root_dir).map
        (fun pr => (heap ++ [pr.2],
          (pr.1 :: pr.2.uri_variants.getD []).foldl
            (fun acc v => indexInsert acc s v (partitionName ep.name).1 heap.length)
            idx)) := by
  unfold processEndpoint
  rw [if_neg hact, hdoc]
  simp only [hsec, Option.isSome_some, true_and, if_pos hm]
  rcases hfd : finishDocs (buildDocs heap ep.docstring (hget heap addr)) urlPrefix
      (partitionName ep.name).2 root_dir with _ | pr
  · rfl
  · have hsec2 : pr.2.«section» = some s := by
      rw [finishDocs_section _ _ _ _ _ hfd,
        buildDocs_section heap ep.docstring _ s hsec]
    simp only [hsec2]
    rfl

/-- Every branch of the loop body leaves the pre-existing heap intact: the
heap is only ever extended with the freshly built record. -/
theorem processEndpoint_heap (heap hp : Heap) (idx ix : Index) (ep : Endpoint)
    ( urlPrefix root_dir : String)
    (h : processEndpoint heap idx ep urlPrefix root_dir = some (hp, ix)) :
    ∃ t, hp = heap ++ t := by
  unfold processEndpoint at h
  by_cases hact : (partitionName ep.name).2 = ""
  · rw [if_pos hact] at h
    exact ⟨[], by simpa using (congrArg Prod.fst (Option.some.inj h)).symm⟩
  · rw [if_neg hact] at h
    split at h
    · exact ⟨[], by simpa using (congrArg Prod.fst (Option.some.inj h)).symm⟩
    · split at h
      · split at h
        · exact Option.noConfusion h
        · split at h
          · exact Option.noConfusion h
          · exact ⟨_, (congrArg Prod.fst (Option.some.inj h)).symm⟩
      · exact ⟨[], by simpa using (congrArg Prod.fst (Option.some.inj h)).symm⟩

theorem collectList_heap ( urlPrefix root_dir : String) :
    ∀ (eps : List Endpoint) (heap hp : Heap) (idx ix : Index),
    collectList urlPrefix root_dir eps heap idx = some (hp, ix) →
    ∃ t, hp = heap ++ t
  | [], heap, hp, idx, ix, h => by
    unfold collectList at h
    exact ⟨[], by simpa [List.append_nil] using (congrArg Prod.fst
      (Option.some.inj h)).symm⟩
  | ep :: rest, heap, hp, idx, ix, h => by
    unfold collectList at h
    rcases hpe : processEndpoint heap idx ep urlPrefix root_dir with _ | hi
    · rw [hpe] at h; exact absurd h (by simp)
    · rw [hpe] at h
      obtain ⟨t1, ht1⟩ := processEndpoint_heap heap hi.1 idx hi.2 ep urlPrefix
        root_dir (by rw [hpe])
      obtain ⟨t2, ht2⟩ := collectList_heap urlPrefix root_dir rest hi.1 hp hi.2 ix h
      exact ⟨t1 ++ t2, by rw [ht2, ht1, List.append_assoc]⟩

/-! Lemmas about the aggregation merge of `GET_docs`. -/

theorem getUri_sectionUpdate_same (acc : Index) (s uri : String) (contents : UDict)
    (hnd : (contents.map Prod.fst).Nodup) :
    getUri (sectionUpdate acc s contents) s uri =
      oupd (getUri acc s uri) (alistGet uri contents) := by
  unfold getUri sectionUpdate
  rw [alistGet_set_self]
  show alistGet uri
      (contents.foldl (fun c kv => alistSet kv.1 kv.2 c) ((alistGet s acc).getD [])) = _
  rw [alistGet_foldset contents _ uri hnd]
  rcases hs : alistGet s acc with _ | uu
  · simp [hs, alistGet]
  · simp [hs]

theorem getUri_sectionUpdate_ne (acc : Index) (s sec uri : String)
    (contents : UDict) (hne : sec ≠ s) :
    getUri (sectionUpdate acc s contents) sec uri = getUri acc sec uri := by
  unfold getUri sectionUpdate
  rw [alistGet_set_ne _ s sec _ hne]

theorem getUri_mergeIndex (sec uri : String) :
    ∀ (P : Index) (acc : Index), indexNoDup P →
    getUri (mergeIndex acc P) sec uri =
      oupd (getUri acc sec uri) (getUri P sec uri)
  | [], acc, _ => by simp [mergeIndex, getUri, alistGet]
  | sc :: rest, acc, hnd => by
    obtain ⟨hnds, hndc⟩ := hnd
    rw [List.map_cons, List.nodup_cons] at hnds
    have hrest : indexNoDup rest :=
      ⟨hnds.2, fun p hp => hndc p (List.mem_cons_of_mem sc hp)⟩
    unfold mergeIndex
    rw [List.foldl_cons]
    have hmerge := getUri_mergeIndex sec uri rest (sectionUpdate acc sc.1 sc.2) hrest
    unfold mergeIndex at hmerge
    rw [hmerge]
    by_cases hsec : sec = sc.1
    · subst hsec
      have hnone : getUri rest sc.1 uri = none := by
        unfold getUri
        rw [alistGet_notmem rest sc.1 (fun p hp hpk => hnds.1
          (by rw [← hpk]; exact List.mem_map_of_mem Prod.fst hp))]
      rw [hnone, getUri_sectionUpdate_same acc sc.1 uri sc.2
        (hndc sc (List.mem_cons_self sc rest))]
      simp [getUri, alistGet]
    · rw [getUri_sectionUpdate_ne acc sc.1 sec uri sc.2 hsec]
      have hskip : getUri (sc :: rest) sec uri = getUri rest sec uri := by
        unfold getUri
        have hns : sc.1 ≠ sec := fun h => hsec h.symm
        rw [show alistGet sec (sc :: rest) = alistGet sec rest from by
          simp [alistGet, hns]]
      rw [hskip]

theorem alistGet_append_some {α : Type} :
    ∀ (l1 l2 : List (String × α)) (k : String) (v : α),
    alistGet k l1 = some v → alistGet k (l1 ++ l2) = some v
  | [], _, _, _, h => Option.noConfusion h
  | p :: rest, l2, k, v, h => by
    rw [List.cons_append]
    unfold alistGet at h ⊢
    by_cases hp : p.1 = k
    · rw [if_pos hp] at h ⊢
      exact h
    · rw [if_neg hp] at h ⊢
      exact alistGet_append_some rest l2 k v h

/-- Full characterization of a successful run of the loop body: the
resolved record, its key fields, and the insertion fold it triggers. -/
theorem processEndpoint_success (heap : Heap) (idx : Index) (ep : Endpoint)
    (addr : Nat) (s fp : String) ( urlPrefix root_dir : String)
    (hact : (partitionName ep.name).2 ≠ "")
    (hdoc : ep.api_doc = some addr)
    (hsec : (hget heap addr).«section» = some s)
    (hm : (partitionName ep.name).1 = "GET" ∨ (partitionName ep.name).1 = "POST")
    (hfp : (hget heap addr).filepath = some fp) :
    ∃ r : DocDict,
      processEndpoint heap idx ep urlPrefix root_dir = some (heap ++ [r],
        (canonicalUri heap ep addr urlPrefix :: r.uri_variants.getD []).foldl
          (fun acc v => indexInsert acc s v (partitionName ep.name).1 heap.length)
          idx) ∧
      r.«section» = some s ∧
      r.uri = some (canonicalUri heap ep addr urlPrefix) ∧
      r.uri_variants = (resolvedBase heap ep addr).uri_variants ∧
      r.parameters = (resolvedBase heap ep addr).parameters ∧
      r.doc = (resolvedBase heap ep addr).doc ∧
      r.extensions = (foldExt (resolvedBase heap ep addr)
        (deriveUri (resolvedBase heap ep addr).uri urlPrefix
          (partitionName ep.name).2)).2.extensions := by
  obtain ⟨r, hfin, hsec2, huri, hvar, hpar, hdc, hexts⟩ :=
    finishDocs_some (resolvedBase heap ep addr) urlPrefix (partitionName ep.name).2
      root_dir fp (buildDocs_filepath heap ep.docstring _ fp hfp)
  refine ⟨r, ?_, ?_, huri, hvar, hpar, hdc, hexts⟩
  · rw [processEndpoint_run heap idx ep addr s urlPrefix root_dir hact hdoc hsec hm]
    unfold resolvedBase at hfin
    rw [hfin]
    rfl
  · rw [hsec2]
    exact buildDocs_section heap ep.docstring _ s hsec

theorem skipCond_mono (heap : Heap) (t : Heap) (ep : Endpoint)
    (h : skipCond heap ep) : skipCond (heap ++ t) ep := by
  rcases h with h | h | h | ⟨addr, h1, h2, h3⟩
  · exact Or.inl h
  · exact Or.inr (Or.inl h)
  · exact Or.inr (Or.inr (Or.inl h))
  · refine Or.inr (Or.inr (Or.inr ⟨addr, h1, ?_, ?_⟩))
    · calc addr < heap.length := h2
        _ ≤ (heap ++ t).length := by simp
    · rw [hget_append_lt heap t addr h2]
      exact h3

/-- Under any of the skip conditions the loop body is a no-op: no failure,
no heap growth, no index entry. -/
theorem processEndpoint_skip (heap : Heap) (idx : Index) (ep : Endpoint)
    ( urlPrefix root_dir : String) (h : skipCond heap ep) :
    processEndpoint heap idx ep urlPrefix root_dir = some (heap, idx) := by
  unfold processEndpoint
  by_cases hact : (partitionName ep.name).2 = ""
  · rw [if_pos hact]
  · rw [if_neg hact]
    rcases hd : ep.api_doc with _ | addr
    · rfl
    · have hcond : ¬ ((hget heap addr).«section».isSome = true ∧
          ((partitionName ep.name).1 = "GET" ∨ (partitionName ep.name).1 = "POST")) := by
        rcases h with h | h | h | ⟨addr2, h1, _, h3⟩
        · exact absurd h hact
        · rw [hd] at h
          exact Option.noConfusion h
        · exact fun hc => hc.2.elim h.1 h.2
        · rw [hd] at h1
          cases Option.some.inj h1
          intro hc
          rw [h3] at hc
          simp at hc
      simp only [hcond, if_false]

theorem collectList_cons ( urlPrefix root_dir : String) (ep : Endpoint)
    (rest : List Endpoint) (heap : Heap) (idx : Index) :
    collectList urlPrefix root_dir (ep :: rest) heap idx =
      match processEndpoint heap idx ep urlPrefix root_dir with
      | none => none
      | some hi => collectList urlPrefix root_dir rest hi.1 hi.2 := rfl

theorem collectList_skip ( urlPrefix root_dir : String) (ep : Endpoint)
    (post : List Endpoint) :
    ∀ (pre : List Endpoint) (heap : Heap) (idx : Index), skipCond heap ep →
    collectList urlPrefix root_dir (pre ++ ep :: post) heap idx =
      collectList urlPrefix root_dir (pre ++ post) heap idx
  | [], heap, idx, h => by
    rw [List.nil_append, List.nil_append, collectList_cons,
      processEndpoint_skip heap idx ep urlPrefix root_dir h]
  | p :: pre, heap, idx, h => by
    rw [List.cons_append, List.cons_append, collectList_cons, collectList_cons]
    rcases hpe : processEndpoint heap idx p urlPrefix root_dir with _ | hi
    · rfl
    · obtain ⟨t, ht⟩ := processEndpoint_heap heap hi.1 idx hi.2 p urlPrefix root_dir
        (by rw [hpe])
      exact collectList_skip urlPrefix root_dir ep post pre hi.1 hi.2
        (ht ▸ skipCond_mono heap t ep h)

/-! Claim theorems. -/

/-- Claim C1, counterexample: the collector never consults `section_info`
and there is no `UnknownSectionError` anywhere in the source.  An endpoint
declaring the unknown section `"bogus"` (absent from the registry) is
collected without any failure and filed into the index under `"bogus"`,
contradicting both the claimed iff-failure and the claimed abort. -/
theorem c1_counterexample :
    alistGet "bogus" section_info = none ∧
    docs_from_controller [cx1Dict] [cx1Ep] "/api" "/r" =
      some ([cx1Dict, cx1Rec], [("bogus", [("/api/x", [("GET", 1)])])]) := by
  exact ⟨rfl, by decide⟩

/-- Claim C1 (amended): collection performs no registry validation and
cannot fail with an UnknownSectionError: every endpoint with attached
metadata, a recognized `METHOD_action` name with method GET or POST, a
declared section and a filepath is filed into the index under its declared
section, with no hypothesis that the section appears in `section_info`. -/
theorem c1_no_section_validation (heap : Heap) (idx : Index) (ep : Endpoint)
    (addr : Nat) (s fp : String) ( urlPrefix root_dir : String)
    (hact : (partitionName ep.name).2 ≠ "")
    (hdoc : ep.api_doc = some addr)
    (hsec : (hget heap addr).«section» = some s)
    (hm : (partitionName ep.name).1 = "GET" ∨ (partitionName ep.name).1 = "POST")
    (hfp : (hget heap addr).filepath = some fp) :
    ∃ hp ix, processEndpoint heap idx ep urlPrefix root_dir = some (hp, ix) ∧
      lookup3 ix s (canonicalUri heap ep addr urlPrefix) (partitionName ep.name).1 =
        some heap.length := by
  obtain ⟨r, hrun, _, _, _, _, _, _⟩ :=
    processEndpoint_success heap idx ep addr s fp urlPrefix root_dir hact hdoc hsec hm hfp
  exact ⟨_, _, hrun, fold_insert_mem s (partitionName ep.name).1 heap.length _ idx _
    (List.mem_cons_self _ _)⟩

/-- Claim C1 witness: the amended theorem at the concrete unknown-section
endpoint. -/
theorem c1_no_section_validation_witness :
    ∃ hp ix, processEndpoint [cx1Dict] [] cx1Ep "/api" "/r" = some (hp, ix) ∧
      lookup3 ix "bogus" (canonicalUri [cx1Dict] cx1Ep 0 "/api")
        (partitionName cx1Ep.name).1 = some 1 :=
  c1_no_section_validation [cx1Dict] [] cx1Ep 0 "bogus" "/r/f.py" "/api" "/r"
    (by decide) rfl rfl (Or.inl rfl) rfl

/-- Claim C2, counterexample: merging in `GET_docs` is a shallow overwrite
at the URI level, not the method level.  Source 1 files the triple
(x, /api/foo, GET); source 2 files (x, /api/foo, POST); no source files the
same (section, URI, method) triple twice, yet after aggregation the GET
entry of the earlier source is gone, contradicting the claimed
method-level preservation. -/
theorem c2_counterexample :
    docs_from_controller [cx2DictA, cx2DictB] [cx2EpA] "/api" "/r" =
      some ([cx2DictA, cx2DictB, cx2RecA], [("x", [("/api/foo", [("GET", 2)])])]) ∧
    GET_docs [cx2DictA, cx2DictB] [([cx2EpA], "/api"), ([cx2EpB], "/api")] "/r" =
      some ([cx2DictA, cx2DictB, cx2RecA, cx2RecB],
        [("x", [("/api/foo", [("POST", 3)])])]) ∧
    lookup3 [("x", [("/api/foo", [("POST", 3)])])] "x" "/api/foo" "GET" = none := by
  refine ⟨by decide, by decide, rfl⟩

/-- Claim C2 (amended): aggregation merges per-source partial indexes by
shallow overwrite at the (section, URI) level: the later source's whole
method dictionary for a URI replaces the earlier one's (methods only the
earlier source defined under that URI are dropped), entries under other
URIs are preserved, and reversing the source order reverses which source's
entry wins. -/
theorem c2_uri_level_merge (P1 P2 : Index) (sec uri : String)
    (h1 : indexNoDup P1) (h2 : indexNoDup P2) :
    getUri (mergeIndex (mergeIndex [] P1) P2) sec uri =
      oupd (getUri P1 sec uri) (getUri P2 sec uri) ∧
    getUri (mergeIndex (mergeIndex [] P2) P1) sec uri =
      oupd (getUri P2 sec uri) (getUri P1 sec uri) := by
  constructor
  · rw [getUri_mergeIndex sec uri P2 _ h2, getUri_mergeIndex sec uri P1 [] h1]
    cases getUri P1 sec uri <;> cases getUri P2 sec uri <;>
      simp [getUri, alistGet, oupd]
  · rw [getUri_mergeIndex sec uri P1 _ h1, getUri_mergeIndex sec uri P2 [] h2]
    cases getUri P1 sec uri <;> cases getUri P2 sec uri <;>
      simp [getUri, alistGet, oupd]

/-- Claim C2 witness: the amended theorem at the two concrete one-entry
sources of the spec's own example, in both orders. -/
theorem c2_uri_level_merge_witness :
    getUri (mergeIndex (mergeIndex [] cx2P1) cx2P2) "x" "/api/foo" =
      oupd (getUri cx2P1 "x" "/api/foo") (getUri cx2P2 "x" "/api/foo") ∧
    getUri (mergeIndex (mergeIndex [] cx2P2) cx2P1) "x" "/api/foo" =
      oupd (getUri cx2P2 "x" "/api/foo") (getUri cx2P1 "x" "/api/foo") :=
  c2_uri_level_merge cx2P1 cx2P2 "x" "/api/foo" (by decide) (by decide)

/-- Claim C3: for an endpoint whose metadata carries an `extends` reference,
the merged record takes the referenced record's fields as defaults, resets
`parameters`, and overwrites with the endpoint's own declared fields: a
redeclared field (e.g. `uri`) takes the child's value, a parent-only field
keeps the parent's value, `parameters` is always the child's own map (empty
if none), and the record is filed under the child's own declared section. -/
theorem c3_inheritance (heap : Heap) (idx : Index) (ep : Endpoint)
    (addr pa : Nat) (s fp : String) ( urlPrefix root_dir : String)
    (hact : (partitionName ep.name).2 ≠ "")
    (hdoc : ep.api_doc = some addr)
    (hm : (partitionName ep.name).1 = "GET" ∨ (partitionName ep.name).1 = "POST")
    (hext : (hget heap addr).«extends» = some pa)
    (hsec : (hget heap addr).«section» = some s)
    (hfp : (hget heap addr).filepath = some fp) :
    (resolvedBase heap ep addr).uri = oupd (hget heap pa).uri (hget heap addr).uri ∧
    (resolvedBase heap ep addr).doc =
      oupd (oupd ep.docstring (hget heap pa).doc) (hget heap addr).doc ∧
    (resolvedBase heap ep addr).uri_variants =
      oupd (hget heap pa).uri_variants (hget heap addr).uri_variants ∧
    (resolvedBase heap ep addr).extensions =
      oupd (hget heap pa).extensions (hget heap addr).extensions ∧
    (resolvedBase heap ep addr).parameters =
      some ((hget heap addr).parameters.getD []) ∧
    (resolvedBase heap ep addr).«section» = some s ∧
    ∃ hp ix, processEndpoint heap idx ep urlPrefix root_dir = some (hp, ix) ∧
      lookup3 ix s (canonicalUri heap ep addr urlPrefix) (partitionName ep.name).1 =
        some heap.length := by
  obtain ⟨h1, h2, h3, h4, h5⟩ := buildDocs_of_extends heap ep.docstring _ pa hext
  obtain ⟨r, hrun, _, _, _, _, _, _⟩ :=
    processEndpoint_success heap idx ep addr s fp urlPrefix root_dir hact hdoc hsec hm hfp
  exact ⟨h1, h2, h3, h4, h5, buildDocs_section heap ep.docstring _ s hsec,
    _, _, hrun, fold_insert_mem s (partitionName ep.name).1 heap.length _ idx _
      (List.mem_cons_self _ _)⟩

/-- Claim C3 witness: a concrete parent/child pair where the child
redeclares `uri`, the parent alone declares `doc`, `uri_variants`,
`extensions` and `parameters`, and the two records declare different
sections. -/
theorem c3_inheritance_witness :
    (resolvedBase [cx3Parent, cx3Child] cx3Ep 1).uri =
      oupd (hget [cx3Parent, cx3Child] 0).uri (hget [cx3Parent, cx3Child] 1).uri ∧
    (resolvedBase [cx3Parent, cx3Child] cx3Ep 1).doc =
      oupd (oupd cx3Ep.docstring (hget [cx3Parent, cx3Child] 0).doc)
        (hget [cx3Parent, cx3Child] 1).doc ∧
    (resolvedBase [cx3Parent, cx3Child] cx3Ep 1).uri_variants =
      oupd (hget [cx3Parent, cx3Child] 0).uri_variants
        (hget [cx3Parent, cx3Child] 1).uri_variants ∧
    (resolvedBase [cx3Parent, cx3Child] cx3Ep 1).extensions =
      oupd (hget [cx3Parent, cx3Child] 0).extensions
        (hget [cx3Parent, cx3Child] 1).extensions ∧
    (resolvedBase [cx3Parent, cx3Child] cx3Ep 1).parameters =
      some ((hget [cx3Parent, cx3Child] 1).parameters.getD []) ∧
    (resolvedBase [cx3Parent, cx3Child] cx3Ep 1).«section» = some "account" ∧
    ∃ hp ix, processEndpoint [cx3Parent, cx3Child] [] cx3Ep "/api" "/r" =
        some (hp, ix) ∧
      lookup3 ix "account" (canonicalUri [cx3Parent, cx3Child] cx3Ep 1 "/api")
        (partitionName cx3Ep.name).1 = some 2 :=
  c3_inheritance [cx3Parent, cx3Child] [] cx3Ep 1 0 "account" "/r/c.py" "/api" "/r"
    (by decide) rfl (Or.inr rfl) rfl rfl rfl

/-- Claim C4: if the resolved extensions list has exactly one entry, the
merged record's URI is the canonical URI with a dotted suffix and the
`extensions` key is removed; with zero or several entries the URI stays the
plain canonical URI and `extensions` is left as it was. -/
theorem c4_extension_folding (heap : Heap) (idx : Index) (ep : Endpoint)
    (addr : Nat) (s fp e : String) ( urlPrefix root_dir : String)
    (hact : (partitionName ep.name).2 ≠ "")
    (hdoc : ep.api_doc = some addr)
    (hsec : (hget heap addr).«section» = some s)
    (hm : (partitionName ep.name).1 = "GET" ∨ (partitionName ep.name).1 = "POST")
    (hfp : (hget heap addr).filepath = some fp) :
    ∃ r ix, processEndpoint heap idx ep urlPrefix root_dir = some (heap ++ [r], ix) ∧
      ((resolvedBase heap ep addr).extensions = some [e] →
        r.uri = some (deriveUri (resolvedBase heap ep addr).uri urlPrefix
          (partitionName ep.name).2 ++ "." ++ e) ∧
        r.extensions = none) ∧
      (((resolvedBase heap ep addr).extensions = none ∨
        (∃ ex, (resolvedBase heap ep addr).extensions = some ex ∧ ex.length ≠ 1)) →
        r.uri = some (deriveUri (resolvedBase heap ep addr).uri urlPrefix
          (partitionName ep.name).2) ∧
        r.extensions = (resolvedBase heap ep addr).extensions) := by
  obtain ⟨r, hrun, _, huri, _, _, _, hexts⟩ :=
    processEndpoint_success heap idx ep addr s fp urlPrefix root_dir hact hdoc hsec hm hfp
  refine ⟨r, _, hrun, ?_, ?_⟩
  · intro hx
    constructor
    · rw [huri]
      simp [canonicalUri, foldExt, hx]
    · rw [hexts]
      simp [foldExt, hx]
  · intro hx
    rcases hx with hx | ⟨ex, hx, hlen⟩
    · exact ⟨by rw [huri]; simp [canonicalUri, foldExt, hx],
        by rw [hexts]; simp [foldExt, hx]⟩
    · exact ⟨by rw [huri]; simp [canonicalUri, foldExt, hx, hlen],
        by rw [hexts]; simp [foldExt, hx, hlen]⟩

/-- Claim C4 witness: the concrete single-extension endpoint
(`extensions = ["json"]`, `uri = "/api/foo"`). -/
theorem c4_extension_folding_witness :
    ∃ r ix, processEndpoint [cx4Dict] [] cx4Ep "/api" "/r" = some ([cx4Dict] ++ [r], ix) ∧
      ((resolvedBase [cx4Dict] cx4Ep 0).extensions = some ["json"] →
        r.uri = some (deriveUri (resolvedBase [cx4Dict] cx4Ep 0).uri "/api"
          (partitionName cx4Ep.name).2 ++ "." ++ "json") ∧
        r.extensions = none) ∧
      (((resolvedBase [cx4Dict] cx4Ep 0).extensions = none ∨
        (∃ ex, (resolvedBase [cx4Dict] cx4Ep 0).extensions = some ex ∧ ex.length ≠ 1)) →
        r.uri = some (deriveUri (resolvedBase [cx4Dict] cx4Ep 0).uri "/api"
          (partitionName cx4Ep.name).2) ∧
        r.extensions = (resolvedBase [cx4Dict] cx4Ep 0).extensions) :=
  c4_extension_folding [cx4Dict] [] cx4Ep 0 "listings" "/r/d.py" "json" "/api" "/r"
    (by decide) rfl rfl (Or.inl rfl) rfl

/-- Claim C5: the fully resolved record is inserted at
`[section][uri][method]` for the canonical URI and then every URI variant,
in declaration order with the canonical URI first, and each of those URI
keys maps to the same heap address (hence to equal record content). -/
theorem c5_variant_fanout (heap : Heap) (idx : Index) (ep : Endpoint)
    (addr : Nat) (s fp : String) ( urlPrefix root_dir : String)
    (hact : (partitionName ep.name).2 ≠ "")
    (hdoc : ep.api_doc = some addr)
    (hsec : (hget heap addr).«section» = some s)
    (hm : (partitionName ep.name).1 = "GET" ∨ (partitionName ep.name).1 = "POST")
    (hfp : (hget heap addr).filepath = some fp) :
    ∃ r : DocDict,
      processEndpoint heap idx ep urlPrefix root_dir = some (heap ++ [r],
        (canonicalUri heap ep addr urlPrefix :: r.uri_variants.getD []).foldl
          (fun acc v => indexInsert acc s v (partitionName ep.name).1 heap.length)
          idx) ∧
      r.uri = some (canonicalUri heap ep addr urlPrefix) ∧
      r.uri_variants = (resolvedBase heap ep addr).uri_variants ∧
      ∀ v ∈ canonicalUri heap ep addr urlPrefix :: r.uri_variants.getD [],
        lookup3 ((canonicalUri heap ep addr urlPrefix :: r.uri_variants.getD []).foldl
            (fun acc w => indexInsert acc s w (partitionName ep.name).1 heap.length)
            idx)
          s v (partitionName ep.name).1 = some heap.length := by
  obtain ⟨r, hrun, _, huri, hvar, _, _, _⟩ :=
    processEndpoint_success heap idx ep addr s fp urlPrefix root_dir hact hdoc hsec hm hfp
  exact ⟨r, hrun, huri, hvar,
    fun v hv => fold_insert_mem s (partitionName ep.name).1 heap.length _ idx v hv⟩

/-- Claim C5 witness: the concrete endpoint with canonical URI `/api/foo`
and one variant `/api/bar`. -/
theorem c5_variant_fanout_witness :
    ∃ r : DocDict,
      processEndpoint [cx5Dict] [] cx5Ep "/api" "/r" = some ([cx5Dict] ++ [r],
        (canonicalUri [cx5Dict] cx5Ep 0 "/api" :: r.uri_variants.getD []).foldl
          (fun acc v => indexInsert acc "misc" v (partitionName cx5Ep.name).1 1) []) ∧
      r.uri = some (canonicalUri [cx5Dict] cx5Ep 0 "/api") ∧
      r.uri_variants = (resolvedBase [cx5Dict] cx5Ep 0).uri_variants ∧
      ∀ v ∈ canonicalUri [cx5Dict] cx5Ep 0 "/api" :: r.uri_variants.getD [],
        lookup3 ((canonicalUri [cx5Dict] cx5Ep 0 "/api" :: r.uri_variants.getD []).foldl
            (fun acc w => indexInsert acc "misc" w (partitionName cx5Ep.name).1 1) [])
          "misc" v (partitionName cx5Ep.name).1 = some 1 :=
  c5_variant_fanout [cx5Dict] [] cx5Ep 0 "misc" "/r/e.py" "/api" "/r"
    (by decide) rfl rfl (Or.inl rfl) rfl

/-- Claim C6: an endpoint whose name has no action suffix, or whose method
part is not GET or POST, or that carries no attached metadata, or whose
metadata lacks a section, is skipped silently: the loop body succeeds
without touching heap or index, and removing the endpoint from the input
set leaves the collector's entire output unchanged. -/
theorem c6_silent_exclusion (heap : Heap) (idx : Index) (ep : Endpoint)
    ( urlPrefix root_dir : String) (pre post : List Endpoint)
    (h : skipCond heap ep) :
    processEndpoint heap idx ep urlPrefix root_dir = some (heap, idx) ∧
    collectList urlPrefix root_dir (pre ++ ep :: post) heap idx =
      collectList urlPrefix root_dir (pre ++ post) heap idx :=
  ⟨processEndpoint_skip heap idx ep urlPrefix root_dir h,
   collectList_skip urlPrefix root_dir ep post pre heap idx h⟩

/-- Claim C6 witness: the concrete endpoint named `"helper"` (no underscore,
hence no action suffix) is skipped. -/
theorem c6_silent_exclusion_witness :
    processEndpoint [] [] cx6Ep "/api" "/r" = some ([], []) ∧
    collectList "/api" "/r" ([] ++ cx6Ep :: []) [] [] =
      collectList "/api" "/r" ([] ++ []) [] [] :=
  c6_silent_exclusion [] [] cx6Ep "/api" "/r" [] [] (Or.inl (by decide))

/-- Claim C7, counterexample: the value stored under `extends` is a live
reference to the parent's `_api_doc` dictionary, not a snapshot.  Attaching
to A, then to B with `extends = A`, then to A again with a new `uri` leaves
B's stored reference (address 0) unchanged while the record it denotes has
changed, so the child's stored extends record is not unchanged. -/
theorem c7_counterexample :
    api_doc ⟨[], []⟩ "account" {} "A" "/r/a.py" 10 = some ⟨[cx7A], [("A", 0)]⟩ ∧
    api_doc ⟨[cx7A], [("A", 0)]⟩ "account" { «extends» := some "A" } "B" "/r/b.py" 20 =
      some ⟨[cx7A, cx7B], [("A", 0), ("B", 1)]⟩ ∧
    api_doc ⟨[cx7A, cx7B], [("A", 0), ("B", 1)]⟩ "account" { uri := some "/changed" }
      "A" "/r/a.py" 10 = some ⟨[cx7A2, cx7B], [("A", 0), ("B", 1)]⟩ ∧
    (hget [cx7A2, cx7B] 1).«extends» = some 0 ∧
    hget [cx7A2, cx7B] 0 ≠ hget [cx7A, cx7B] 0 := by
  refine ⟨by decide, by decide, by decide, rfl, by decide⟩

/-- Claim C7 (amended): the `extends` value stored at attachment time is the
referenced endpoint's metadata dictionary itself — a live alias, not a
snapshot.  A later attachment that updates the referenced endpoint's
dictionary leaves the child's own dictionary (and the reference stored in
it) unchanged, but the record reachable through that reference is the
updated one. -/
theorem c7_live_reference (st st2 : AttachState) (sec g fp : String) (kw : Kwargs)
    (ln : Nat) (a cA : Nat)
    (hg : alistGet g st.attached = some a)
    (ha : a < st.heap.length)
    (hne : cA ≠ a)
    (hk : kw.«extends» = none)
    (hchild : (hget st.heap cA).«extends» = some a)
    (hrun : api_doc st sec kw g fp ln = some st2) :
    hget st2.heap cA = hget st.heap cA ∧
    (hget st2.heap cA).«extends» = some a ∧
    hget st2.heap a = { kwargsUpdate (hget st.heap a) kw none with
      «section» := some sec, filepath := some fp, lineno := some ln } := by
  unfold api_doc at hrun
  rw [hg] at hrun
  simp only [hk] at hrun
  cases Option.some.inj hrun
  refine ⟨hget_hset_ne st.heap a cA _ hne, ?_, hget_hset_self st.heap a _ ha⟩
  rw [hget_hset_ne st.heap a cA _ hne]
  exact hchild

/-- Claim C7 witness: the amended theorem at the concrete A/B scenario of
the counterexample. -/
theorem c7_live_reference_witness :
    hget [cx7A2, cx7B] 1 = hget [cx7A, cx7B] 1 ∧
    (hget [cx7A2, cx7B] 1).«extends» = some 0 ∧
    hget [cx7A2, cx7B] 0 =
      { kwargsUpdate (hget [cx7A, cx7B] 0) { uri := some "/changed" } none with
        «section» := some "account", filepath := some "/r/a.py",
        lineno := some 10 } :=
  c7_live_reference ⟨[cx7A, cx7B], [("A", 0), ("B", 1)]⟩
    ⟨[cx7A2, cx7B], [("A", 0), ("B", 1)]⟩ "account" "A" "/r/a.py"
    { uri := some "/changed" } 10 0 1 rfl (by decide) (by decide) rfl rfl (by decide)

/-- Claim C8: the collector never mutates any endpoint's attached metadata:
a successful run of `docs_from_controller` only appends freshly built merged
records to the heap, so every dictionary that existed before the run —
including every attached `_api_doc` — is unchanged afterwards. -/
theorem c8_no_mutation (heap hp : Heap) (ctrl : List Endpoint) (ix : Index)
    ( urlPrefix root_dir : String)
    (h : docs_from_controller heap ctrl urlPrefix root_dir = some (hp, ix)) :
    (∃ t, hp = heap ++ t) ∧ ∀ a, a < heap.length → hget hp a = hget heap a := by
  obtain ⟨t, ht⟩ := collectList_heap urlPrefix root_dir ctrl heap hp [] ix h
  exact ⟨⟨t, ht⟩, fun a ha => by rw [ht, hget_append_lt heap t a ha]⟩

/-- Claim C8 witness: the concrete single-endpoint run (with an extensions
list that the collector folds away in its derived copy). -/
theorem c8_no_mutation_witness :
    (∃ t, [cx4Dict, cx8Rec] = [cx4Dict] ++ t) ∧
    ∀ a, a < List.length [cx4Dict] →
      hget [cx4Dict, cx8Rec] a = hget [cx4Dict] a :=
  c8_no_mutation [cx4Dict] [cx4Dict, cx8Rec] [cx4Ep]
    [("listings", [("/api/foo.json", [("GET", 1)])])] "/api" "/r" (by decide)

/-- Claim C9, counterexample: an `extends` reference to an endpoint with no
attached metadata record makes `api_doc` fail (an AttributeError on
`._api_doc`), so attachment does not degrade gracefully. -/
theorem c9_counterexample :
    api_doc ⟨[], []⟩ "account" { «extends» := some "X" } "B" "/r/b.py" 5 = none := by
  decide

/-- Claim C9 (amended): an `extends` reference to an endpoint with no
attached metadata record causes attachment to fail; when the referenced
endpoint does have an attached record, attachment always succeeds, and a
referenced record that merely lacks a `section` does not make collection
fail — the referring endpoint still inherits the parent's fields (it is not
treated as if it declared no inheritance). -/
theorem c9_extends_cases (st : AttachState) (sec fn g fp2 : String) (kw : Kwargs)
    (ln ga : Nat) (heap : Heap) (idx : Index) (ep : Endpoint) (addr pa : Nat)
    (s fp : String) ( urlPrefix root_dir : String)
    (hk : kw.«extends» = some g)
    (hg : alistGet g st.attached = some ga)
    (hact : (partitionName ep.name).2 ≠ "")
    (hdoc : ep.api_doc = some addr)
    (hm : (partitionName ep.name).1 = "GET" ∨ (partitionName ep.name).1 = "POST")
    (hsec : (hget heap addr).«section» = some s)
    (hext : (hget heap addr).«extends» = some pa)
    (hpsec : (hget heap pa).«section» = none)
    (hfp : (hget heap addr).filepath = some fp) :
    (∃ st2, api_doc st sec kw fn fp2 ln = some st2) ∧
    (∃ hp ix, processEndpoint heap idx ep urlPrefix root_dir = some (hp, ix)) ∧
    (resolvedBase heap ep addr).uri = oupd (hget heap pa).uri (hget heap addr).uri ∧
    (resolvedBase heap ep addr).doc =
      oupd (oupd ep.docstring (hget heap pa).doc) (hget heap addr).doc := by
  obtain ⟨h1, h2, _, _, _⟩ := buildDocs_of_extends heap ep.docstring _ pa hext
  obtain ⟨r, hrun, _, _, _, _, _, _⟩ :=
    processEndpoint_success heap idx ep addr s fp urlPrefix root_dir hact hdoc hsec hm hfp
  refine ⟨?_, ⟨_, _, hrun⟩, h1, h2⟩
  unfold api_doc
  rcases hfn : alistGet fn st.attached with _ | a0
  · simp only [hk, alistGet_append_some st.attached _ g ga hg]
    exact ⟨_, rfl⟩
  · simp only [hk, hg]
    exact ⟨_, rfl⟩

/-- Claim C9 witness: attachment with `extends` to the attached endpoint A
succeeds, and collection of a child extending a section-less parent
succeeds and inherits the parent's `uri` and `doc`. -/
theorem c9_extends_cases_witness :
    (∃ st2, api_doc ⟨[cx7A], [("A", 0)]⟩ "account" { «extends» := some "A" }
      "B" "/r/b.py" 20 = some st2) ∧
    (∃ hp ix, processEndpoint [cx9Parent, cx9Child] [] cx9Ep "/api" "/r" =
      some (hp, ix)) ∧
    (resolvedBase [cx9Parent, cx9Child] cx9Ep 1).uri =
      oupd (hget [cx9Parent, cx9Child] 0).uri (hget [cx9Parent, cx9Child] 1).uri ∧
    (resolvedBase [cx9Parent, cx9Child] cx9Ep 1).doc =
      oupd (oupd cx9Ep.docstring (hget [cx9Parent, cx9Child] 0).doc)
        (hget [cx9Parent, cx9Child] 1).doc :=
  c9_extends_cases ⟨[cx7A], [("A", 0)]⟩ "account" "B" "A" "/r/b.py"
    { «extends» := some "A" } 20 0 [cx9Parent, cx9Child] [] cx9Ep 1 0
    "misc" "/r/c.py" "/api" "/r" rfl rfl (by decide) rfl (Or.inl rfl) rfl rfl rfl rfl

/-- Claim C10: a `uri` key that is present but holds the empty string is
treated exactly like an absent `uri` key (the test is on truthiness, not key
presence): the canonical URI falls back to `urlPrefix ++ "/" ++ action`, and
the whole remaining resolution behaves identically. -/
theorem c10_empty_uri (d : DocDict) ( urlPrefix action root_dir : String)
    (h : d.uri = some "") :
    finishDocs d urlPrefix action root_dir =
      finishDocs { d with uri := none } urlPrefix action root_dir ∧
    deriveUri d.uri urlPrefix action = urlPrefix ++ "/" ++ action := by
  obtain ⟨s0, d0, u0, v0, e0, p0, x0, f0, l0, r0⟩ := d
  have h2 : u0 = some "" := h
  subst h2
  refine ⟨?_, by simp [deriveUri]⟩
  rcases e0 with _ | exts <;> rcases f0 with _ | fp <;>
    simp only [finishDocs, deriveUri, foldExt] <;>
    (repeat' split) <;> first | rfl | simp_all

/-- Claim C10 witness: the concrete record with `uri = some ""`. -/
theorem c10_empty_uri_witness :
    finishDocs cx10Dict "/api" "foo" "/r" =
      finishDocs { cx10Dict with uri := none } "/api" "foo" "/r" ∧
    deriveUri cx10Dict.uri "/api" "foo" = "/api" ++ "/" ++ "foo" :=
  c10_empty_uri cx10Dict "/api" "foo" "/r" rfl

end ApiDocs
